import Mathlib

/-!
Verification of the BIP (Broadcast Incremental Power) broadcast-tree tool
(`src/main.cpp`) against its specification.

The program is embedded shallowly: coordinates and powers are rationals
(the C++ `double` arithmetic here is exact), the `std::vector` collections
are lists, and each loop of the source is a recursive function that follows
the source's control flow — including the `erase`-inside-a-`for` index skip.
-/

namespace BIP

/-- A 2-D point: one row of the `locations`, `uncovered` or `nontransmitting`
vectors of `main`. -/
abbrev Point := ℚ × ℚ

/-- One row of the `transmitting` (and `transmissionPath`) vector: x, y, power. -/
structure TransNode where
  x : ℚ
  y : ℚ
  power : ℚ
deriving DecidableEq

/-- `std::abs` on rationals. -/
def rabs (q : ℚ) : ℚ := if q < 0 then -q else q

/-- `doubleEquals(x1, x2, epsilon = 0.0001)` from main.cpp line 21:
`std::abs(x1 - x2) < epsilon`. -/
def doubleEquals (x1 x2 : ℚ) (epsilon : ℚ := 1/10000) : Prop :=
  rabs (x1 - x2) < epsilon

instance (x1 x2 epsilon : ℚ) : Decidable (doubleEquals x1 x2 epsilon) := by
  unfold doubleEquals; infer_instance

/-- `pow(x1 - x2, 2) + pow(y1 - y2, 2)` (lines 109 and 124). -/
def sqDist (x1 y1 x2 y2 : ℚ) : ℚ := (x1 - x2) * (x1 - x2) + (y1 - y2) * (y1 - y2)

/-- One row of `minPowersForAllNodes`:
minPower, xSource, ySource, xUncovered, yUncovered (line 85). -/
structure Cand where
  cost : ℚ
  sx : ℚ
  sy : ℚ
  tx : ℚ
  ty : ℚ
deriving DecidableEq

/-- The loop-local state of `main`: the four vectors and the round counter. -/
structure BIPState where
  transmitting : List TransNode
  nontransmitting : List Point
  uncovered : List Point
  transmissionPath : List TransNode
  round : ℕ
deriving DecidableEq

/-- Candidate row pushed for a transmitting node (lines 99-114): the
additional power `powerToReachUncoveredNode - currentPower`. -/
def transCand (t : TransNode) (u : Point) : Cand :=
  ⟨sqDist t.x t.y u.1 u.2 - t.power, t.x, t.y, u.1, u.2⟩

/-- Candidate row pushed for a covered non-transmitting node (lines 118-127):
the full power `powerToReachUncoveredNode`. -/
def relayCand (n : Point) (u : Point) : Cand :=
  ⟨sqDist n.1 n.2 u.1 u.2, n.1, n.2, u.1, u.2⟩

/-- `minPowersForAllNodes` as filled by the two nested candidate loops, in
order: all transmitting-node rows first (outer loop over `transmitting`,
inner over `uncovered`), then all relay rows (outer loop over
`nontransmitting`, inner over `uncovered`). -/
def candidates (s : BIPState) : List Cand :=
  (s.transmitting.flatMap fun t => s.uncovered.map fun u => transCand t u)
  ++ (s.nontransmitting.flatMap fun n => s.uncovered.map fun u => relayCand n u)

/-- `std::min_element` (lines 135-136): scans left to right keeping the
current best and replacing it only when a later element is strictly
smaller, hence it returns the first minimum. -/
def selectMinCand (c : Cand) : List Cand → Cand
  | [] => c
  | d :: rest => if d.cost < c.cost then selectMinCand d rest else selectMinCand c rest

/-- A `for (i = 0; i < v.size(); ++i) if (match) v.erase(v.begin() + i)` loop
(lines 155-162 and 169-173): after an erase the next element shifts into
slot `i` and the `++i` skips it. Returns the new vector and the number of
erased elements. -/
def eraseSkip (p : Point → Prop) [DecidablePred p] : List Point → List Point × ℕ
  | [] => ([], 0)
  | a :: rest =>
    if p a then
      match rest with
      | [] => ([], 1)
      | b :: rest2 => ((b :: (eraseSkip p rest2).1), (eraseSkip p rest2).2 + 1)
    else ((a :: (eraseSkip p rest).1), (eraseSkip p rest).2)

/-- The coordinate match used by all three update loops:
`doubleEquals` on both axes against a fixed target `q`. -/
def matchesPoint (q : Point) (a : Point) : Prop :=
  doubleEquals a.1 q.1 ∧ doubleEquals a.2 q.2

instance (q a : Point) : Decidable (matchesPoint q a) := by
  unfold matchesPoint; infer_instance

/-- Lines 139-173 applied to the winning row `w`: log it, add its cost to
every matching transmitting node (lines 146-151), promote (with the skip)
every matching non-transmitting node to a transmitting row carrying the
winner's coordinates and cost (lines 155-162), append the newly covered
point to `nontransmitting` (line 165), and erase (with the skip) every
matching point from `uncovered` (lines 169-173). -/
def applyWinner (s : BIPState) (w : Cand) : BIPState :=
  { transmitting :=
      (s.transmitting.map fun t =>
        if matchesPoint (w.sx, w.sy) (t.x, t.y) then
          { t with power := t.power + w.cost } else t)
      ++ List.replicate (eraseSkip (matchesPoint (w.sx, w.sy)) s.nontransmitting).2
          ⟨w.sx, w.sy, w.cost⟩
    nontransmitting :=
      (eraseSkip (matchesPoint (w.sx, w.sy)) s.nontransmitting).1 ++ [(w.tx, w.ty)]
    uncovered := (eraseSkip (matchesPoint (w.tx, w.ty)) s.uncovered).1
    transmissionPath := s.transmissionPath ++ [⟨w.sx, w.sy, w.cost⟩]
    round := s.round + 1 }

/-- One iteration of the while loop body (lines 78-187): build
`minPowersForAllNodes`, pick the first-minimum row and apply it. -/
def stepRound (s : BIPState) : BIPState :=
  match candidates s with
  | [] => s
  | c :: cs => applyWinner s (selectMinCand c cs)

/-- One guarded iteration: the while condition of line 77. -/
def loopStep (s : BIPState) : BIPState := if s.uncovered = [] then s else stepRound s

/-- `n` guarded iterations of the while loop. -/
def iterLoop (s : BIPState) : ℕ → BIPState
  | 0 => s
  | n + 1 => loopStep (iterLoop s n)

/-- Lines 63-74: the source is the sole transmitting node at power 0, every
other input point is uncovered, the other vectors start empty. -/
def initState (src : Point) (rest : List Point) : BIPState :=
  ⟨[⟨src.1, src.2, 0⟩], [], rest, [], 0⟩

/-- The full run of the while loop on input `src :: rest`; `rest.length`
guarded iterations always suffice to empty `uncovered` (proved below), and
once `uncovered` is empty `loopStep` is the identity. -/
def runBIP (src : Point) (rest : List Point) : BIPState :=
  iterLoop (initState src rest) rest.length

/-- Line 68's `locations[0]` access: `main` runs the loop only when the
`locations` vector is non-empty; on an empty vector the access is out of
bounds, modelled by `none`. -/
def bipFromLocations (locations : List Point) : Option BIPState :=
  match locations with
  | [] => none
  | src :: rest => some (runBIP src rest)

/-- `totalBroadcastCost` (lines 195-201): the sum of the final powers of the
transmitting nodes. -/
def totalBroadcastCost (s : BIPState) : ℚ :=
  (s.transmitting.map TransNode.power).sum

/-- The sum of the power increments recorded in `transmissionPath`. -/
def pathCostSum (s : BIPState) : ℚ :=
  (s.transmissionPath.map TransNode.power).sum

/-- Lines 51-54 applied to one non-empty line: strip the first and last
character, split at the first comma, and convert both halves with `stod`
(the numeric conversion is kept abstract as a parameter). -/
def parseLine (stod : String → ℚ) (line : String) : Point :=
  let inner := (line.drop 1).dropRight 1
  let before := inner.takeWhile fun c => c ≠ ','
  (stod before, stod (inner.drop (before.length + 1)))

/-- The input loader (lines 47-61): when the file cannot be opened
(`file = none`) the `if (file.is_open())` guard is skipped and the loader
yields the empty `locations` vector; otherwise every non-empty line is
parsed in order. -/
def loadLocations (file : Option (List String)) (stod : String → ℚ) : List Point :=
  match file with
  | none => []
  | some lines => (lines.filter fun l => !l.isEmpty).map (parseLine stod)

/-- The observable outcome of `main`: either the usage message together with
the exit status, or a completed run. -/
inductive ProgResult where
  | usage (msg : String) (exitCode : Int)
  | completed (result : Option BIPState)
deriving DecidableEq

/-- The usage line printed at line 29. -/
def usageMessage : String := "Run the command: ./a.out locations.txt"

/-- `main` (lines 26-214): the `argc != 2` guard returns the usage message
with exit status -1 before the file is touched; otherwise the loader and
the loop run. -/
def progMain (argc : ℕ) (file : Option (List String)) (stod : String → ℚ) : ProgResult :=
  if argc ≠ 2 then .usage usageMessage (-1)
  else .completed (bipFromLocations (loadLocations file stod))


/-- `r` is the first global minimum of `l`: everything before it is strictly
more expensive, everything after it at least as expensive. -/
def IsFirstMin (l : List Cand) (r : Cand) : Prop :=
  ∃ l1 l2, l = l1 ++ r :: l2 ∧ (∀ d ∈ l1, r.cost < d.cost) ∧ (∀ d ∈ l2, r.cost ≤ d.cost)

/-- The inductive invariant behind monotone powers: every transmitting
node's power is non-negative and bounded by the squared distance to every
uncovered node, so every additional-power candidate is non-negative. -/
def PowerInv (s : BIPState) : Prop :=
  (∀ t ∈ s.transmitting, 0 ≤ t.power) ∧
  (∀ t ∈ s.transmitting, ∀ u ∈ s.uncovered, t.power ≤ sqDist t.x t.y u.1 u.2)

/-- Coordinates of a transmitting row. -/
def coords (t : TransNode) : Point := (t.x, t.y)

/-- Every point the algorithm currently tracks, category by category. -/
def allPoints (s : BIPState) : List Point :=
  s.transmitting.map coords ++ s.nontransmitting ++ s.uncovered

/-- No two distinct input nodes are coordinate-equal within the 0.0001
tolerance (on both axes). -/
def SepLocations (locations : List Point) : Prop :=
  locations.Pairwise fun a b => ¬ matchesPoint a b

/-- The loop invariant under a well-separated input `locations`: the tracked
points are a permutation of the input, the source never leaves
`transmitting`, the round counter counts the covered non-source nodes, and
the transmitting powers sum to the logged increments. -/
def GoodState (locations : List Point) (s : BIPState) : Prop :=
  (allPoints s).Perm locations ∧
  s.transmitting ≠ [] ∧
  s.round + s.uncovered.length + 1 = locations.length ∧
  totalBroadcastCost s = pathCostSum s

/-! ### Basic facts about the tolerance comparison -/

theorem rabs_nonneg (q : ℚ) : 0 ≤ rabs q := by
  unfold rabs; split <;> linarith

theorem rabs_sub_comm (x y : ℚ) : rabs (x - y) = rabs (y - x) := by
  unfold rabs
  rcases lt_trichotomy (x - y) 0 with h | h | h
  · rw [if_pos h, if_neg (by linarith)]; ring
  · rw [if_neg (by linarith), if_neg (by linarith)]; linarith
  · rw [if_neg (by linarith), if_pos (by linarith)]; ring

theorem doubleEquals_refl (x : ℚ) : doubleEquals x x := by
  simp [doubleEquals, rabs]

theorem doubleEquals_symm {x y epsilon : ℚ} (h : doubleEquals x y epsilon) :
    doubleEquals y x epsilon := by
  unfold doubleEquals at h ⊢
  rw [rabs_sub_comm]; exact h

theorem matchesPoint_refl (q : Point) : matchesPoint q q :=
  ⟨doubleEquals_refl _, doubleEquals_refl _⟩

theorem matchesPoint_symm {q a : Point} (h : matchesPoint q a) : matchesPoint a q :=
  ⟨doubleEquals_symm h.1, doubleEquals_symm h.2⟩

theorem sqDist_nonneg (x1 y1 x2 y2 : ℚ) : 0 ≤ sqDist x1 y1 x2 y2 :=
  add_nonneg (mul_self_nonneg _) (mul_self_nonneg _)

/-! ### `std::min_element` returns the first global minimum -/

theorem selectMinCand_mem (c : Cand) (cs : List Cand) :
    selectMinCand c cs ∈ c :: cs := by
  induction cs generalizing c with
  | nil => simp [selectMinCand]
  | cons d rest ih =>
    rw [selectMinCand]
    split
    · have := ih d
      simp only [List.mem_cons] at this ⊢
      tauto
    · have := ih c
      simp only [List.mem_cons] at this ⊢
      tauto

theorem selectMinCand_le (c : Cand) (cs : List Cand) :
    ∀ d ∈ c :: cs, (selectMinCand c cs).cost ≤ d.cost := by
  induction cs generalizing c with
  | nil =>
    intro d hd
    rw [List.mem_singleton] at hd
    rw [hd, selectMinCand]
  | cons e rest ih =>
    intro d hd
    rw [selectMinCand]
    split
    · rename_i hlt
      rcases List.mem_cons.1 hd with rfl | hd2
      · exact le_trans (ih e e (List.mem_cons_self _ _)) (le_of_lt hlt)
      · exact ih e d hd2
    · rename_i hge
      rcases List.mem_cons.1 hd with rfl | hd2
      · exact ih d d (List.mem_cons_self _ _)
      · rcases List.mem_cons.1 hd2 with rfl | hd3
        · exact le_trans (ih c c (List.mem_cons_self _ _)) (not_lt.1 hge)
        · exact ih c d (List.mem_cons_of_mem _ hd3)


theorem selectMinCand_isFirstMin (c : Cand) (cs : List Cand) :
    IsFirstMin (c :: cs) (selectMinCand c cs) := by
  induction cs generalizing c with
  | nil => exact ⟨[], [], by simp [selectMinCand], by simp, by simp⟩
  | cons e rest ih =>
    rw [selectMinCand]
    split
    · rename_i hlt
      obtain ⟨l1, l2, hsplit, hbefore, hafter⟩ := ih e
      refine ⟨c :: l1, l2, ?_, ?_, hafter⟩
      · rw [List.cons_append, ← hsplit]
      · intro d hd
        rcases List.mem_cons.1 hd with rfl | hd2
        · exact lt_of_le_of_lt (selectMinCand_le e rest e (List.mem_cons_self _ _)) hlt
        · exact hbefore d hd2
    · rename_i hge
      have hge' : c.cost ≤ e.cost := not_lt.1 hge
      obtain ⟨l1, l2, hsplit, hbefore, hafter⟩ := ih c
      cases l1 with
      | nil =>
        rw [List.nil_append] at hsplit
        injection hsplit with h1 h2
        refine ⟨[], e :: rest, by rw [List.nil_append, ← h1], by simp, ?_⟩
        intro d hd
        rcases List.mem_cons.1 hd with rfl | hd2
        · rw [← h1]; exact hge'
        · rw [h2] at hd2; exact hafter d hd2
      | cons a l1' =>
        rw [List.cons_append] at hsplit
        injection hsplit with h1 h2
        have hcc : (selectMinCand c rest).cost < c.cost := by
          have := hbefore a (List.mem_cons_self _ _)
          rw [← h1] at this; exact this
        refine ⟨c :: e :: l1', l2, ?_, ?_, hafter⟩
        · nth_rewrite 1 [h2]; simp
        · intro d hd
          rcases List.mem_cons.1 hd with rfl | hd2
          · exact hcc
          · rcases List.mem_cons.1 hd2 with rfl | hd3
            · exact lt_of_lt_of_le hcc hge'
            · exact hbefore d (List.mem_cons_of_mem _ hd3)

/-! ### The erase-inside-a-for loops -/

theorem eraseSkip_nil (p : Point → Prop) [DecidablePred p] : eraseSkip p [] = ([], 0) := rfl

theorem eraseSkip_pos_nil (p : Point → Prop) [DecidablePred p] {a : Point} (hpa : p a) :
    eraseSkip p [a] = ([], 1) := by
  simp [eraseSkip, hpa]

theorem eraseSkip_pos_cons (p : Point → Prop) [DecidablePred p] {a : Point} (hpa : p a)
    (b : Point) (rest2 : List Point) :
    eraseSkip p (a :: b :: rest2) =
      (b :: (eraseSkip p rest2).1, (eraseSkip p rest2).2 + 1) := by
  simp [eraseSkip, hpa]

theorem eraseSkip_neg (p : Point → Prop) [DecidablePred p] {a : Point} (hpa : ¬ p a)
    (rest : List Point) :
    eraseSkip p (a :: rest) = (a :: (eraseSkip p rest).1, (eraseSkip p rest).2) := by
  cases rest with
  | nil => simp [eraseSkip, hpa]
  | cons b rest2 => simp [eraseSkip, hpa]

theorem eraseSkip_sublist (p : Point → Prop) [DecidablePred p] (l : List Point) :
    (eraseSkip p l).1.Sublist l := by
  induction l using eraseSkip.induct p with
  | case1 => simp [eraseSkip_nil]
  | case2 a hpa => rw [eraseSkip_pos_nil p hpa]; exact List.nil_sublist _
  | case3 a hpa b rest2 ih =>
    rw [eraseSkip_pos_cons p hpa]
    exact List.Sublist.cons a (List.Sublist.cons₂ b ih)
  | case4 a rest hpa ih =>
    rw [eraseSkip_neg p hpa]
    exact List.Sublist.cons₂ a ih

theorem eraseSkip_length (p : Point → Prop) [DecidablePred p] (l : List Point) :
    (eraseSkip p l).1.length + (eraseSkip p l).2 = l.length := by
  induction l using eraseSkip.induct p with
  | case1 => simp [eraseSkip_nil]
  | case2 a hpa => rw [eraseSkip_pos_nil p hpa]; simp
  | case3 a hpa b rest2 ih =>
    rw [eraseSkip_pos_cons p hpa]
    simp only [List.length_cons]
    omega
  | case4 a rest hpa ih =>
    rw [eraseSkip_neg p hpa]
    simp only [List.length_cons]
    omega

theorem eraseSkip_count_pos (p : Point → Prop) [DecidablePred p] (l : List Point)
    (h : ∃ a ∈ l, p a) : 1 ≤ (eraseSkip p l).2 := by
  induction l using eraseSkip.induct p with
  | case1 => simp at h
  | case2 a hpa => rw [eraseSkip_pos_nil p hpa]
  | case3 a hpa b rest2 ih => rw [eraseSkip_pos_cons p hpa]; omega
  | case4 a rest hpa ih =>
    rw [eraseSkip_neg p hpa]
    apply ih
    rcases h with ⟨x, hx, hpx⟩
    rcases List.mem_cons.1 hx with rfl | hx2
    · exact absurd hpx hpa
    · exact ⟨x, hx2, hpx⟩

theorem eraseSkip_no_match (p : Point → Prop) [DecidablePred p] (l : List Point)
    (h : ∀ a ∈ l, ¬ p a) : eraseSkip p l = (l, 0) := by
  induction l with
  | nil => rfl
  | cons a rest ih =>
    have hpa : ¬ p a := h a (List.mem_cons_self _ _)
    rw [eraseSkip_neg p hpa, ih fun x hx => h x (List.mem_cons_of_mem _ hx)]

/-- When exactly one element of the vector matches, the loop erases exactly
that element and nothing else. -/
theorem eraseSkip_single (p : Point → Prop) [DecidablePred p] (l1 l2 : List Point)
    (t : Point) (hpt : p t) (h1 : ∀ a ∈ l1, ¬ p a) (h2 : ∀ a ∈ l2, ¬ p a) :
    eraseSkip p (l1 ++ t :: l2) = (l1 ++ l2, 1) := by
  induction l1 with
  | nil =>
    simp only [List.nil_append]
    cases l2 with
    | nil => exact eraseSkip_pos_nil p hpt
    | cons b rest2 =>
      rw [eraseSkip_pos_cons p hpt,
        eraseSkip_no_match p rest2 fun x hx => h2 x (List.mem_cons_of_mem _ hx)]
  | cons a l1' ih =>
    have hpa : ¬ p a := h1 a (List.mem_cons_self _ _)
    simp only [List.cons_append]
    rw [eraseSkip_neg p hpa, ih fun x hx => h1 x (List.mem_cons_of_mem _ hx)]

/-! ### The candidate pool -/

theorem mem_candidates {s : BIPState} {c : Cand} :
    c ∈ candidates s ↔
      (∃ t ∈ s.transmitting, ∃ u ∈ s.uncovered, c = transCand t u) ∨
      (∃ n ∈ s.nontransmitting, ∃ u ∈ s.uncovered, c = relayCand n u) := by
  simp only [candidates, List.mem_append, List.mem_flatMap, List.mem_map]
  constructor
  · rintro (⟨t, ht, u, hu, rfl⟩ | ⟨n, hn, u, hu, rfl⟩)
    · exact Or.inl ⟨t, ht, u, hu, rfl⟩
    · exact Or.inr ⟨n, hn, u, hu, rfl⟩
  · rintro (⟨t, ht, u, hu, rfl⟩ | ⟨n, hn, u, hu, rfl⟩)
    · exact Or.inl ⟨t, ht, u, hu, rfl⟩
    · exact Or.inr ⟨n, hn, u, hu, rfl⟩

theorem candidates_ne_nil {s : BIPState} (ht : s.transmitting ≠ [])
    (hu : s.uncovered ≠ []) : candidates s ≠ [] := by
  obtain ⟨t, ts, hts⟩ : ∃ t ts, s.transmitting = t :: ts :=
    List.exists_cons_of_ne_nil ht
  obtain ⟨u, us, hus⟩ : ∃ u us, s.uncovered = u :: us :=
    List.exists_cons_of_ne_nil hu
  simp [candidates, hts, hus]

/-! ### Non-negative candidate costs and monotone powers -/

theorem cost_nonneg {s : BIPState} (hInv : PowerInv s) {c : Cand}
    (hc : c ∈ candidates s) : 0 ≤ c.cost := by
  rcases mem_candidates.1 hc with ⟨t, ht, u, hu, rfl⟩ | ⟨n, hn, u, hu, rfl⟩
  · have := hInv.2 t ht u hu
    simp only [transCand]
    linarith
  · exact sqDist_nonneg _ _ _ _

theorem stepRound_of_candidates_nil {s : BIPState} (h : candidates s = []) :
    stepRound s = s := by
  unfold stepRound; rw [h]

theorem stepRound_of_candidates_cons {s : BIPState} {c : Cand} {cs : List Cand}
    (h : candidates s = c :: cs) :
    stepRound s = applyWinner s (selectMinCand c cs) := by
  unfold stepRound; rw [h]

theorem powerInv_applyWinner {s : BIPState} {w : Cand} (hInv : PowerInv s)
    (hw : w ∈ candidates s) (hmin : ∀ d ∈ candidates s, w.cost ≤ d.cost) :
    PowerInv (applyWinner s w) := by
  have hc0 : 0 ≤ w.cost := cost_nonneg hInv hw
  have horigin : ∀ u ∈ s.uncovered, w.cost ≤ sqDist w.sx w.sy u.1 u.2 := by
    rcases mem_candidates.1 hw with ⟨t0, ht0, u0, hu0, rfl⟩ | ⟨n0, hn0, u0, hu0, rfl⟩
    · intro u hu
      have h1 := hmin _ (mem_candidates.2 (Or.inl ⟨t0, ht0, u, hu, rfl⟩))
      have h2 := hInv.1 t0 ht0
      simp only [transCand] at h1 ⊢
      linarith
    · intro u hu
      have h1 := hmin _ (mem_candidates.2 (Or.inr ⟨n0, hn0, u, hu, rfl⟩))
      simp only [relayCand] at h1 ⊢
      exact h1
  have huncov : ∀ u ∈ (applyWinner s w).uncovered, u ∈ s.uncovered := by
    intro u hu
    exact (eraseSkip_sublist _ _).mem hu
  constructor
  · intro t' ht'
    rcases List.mem_append.1 ht' with hmap | hrep
    · obtain ⟨t, ht, rfl⟩ := List.mem_map.1 hmap
      have h1 := hInv.1 t ht
      split
      · simp only; linarith
      · exact h1
    · rw [List.eq_of_mem_replicate hrep]
      exact hc0
  · intro t' ht' u hu
    have hu' : u ∈ s.uncovered := huncov u hu
    rcases List.mem_append.1 ht' with hmap | hrep
    · obtain ⟨t, ht, rfl⟩ := List.mem_map.1 hmap
      have h1 := hmin _ (mem_candidates.2 (Or.inl ⟨t, ht, u, hu', rfl⟩))
      simp only [transCand] at h1
      have h2 := hInv.2 t ht u hu'
      split
      · simp only; linarith
      · exact h2
    · rw [List.eq_of_mem_replicate hrep]
      exact horigin u hu'

theorem powerInv_stepRound {s : BIPState} (hInv : PowerInv s) :
    PowerInv (stepRound s) := by
  cases hcs : candidates s with
  | nil => rw [stepRound_of_candidates_nil hcs]; exact hInv
  | cons c cs =>
    rw [stepRound_of_candidates_cons hcs]
    apply powerInv_applyWinner hInv
    · rw [hcs]; exact selectMinCand_mem c cs
    · rw [hcs]; exact selectMinCand_le c cs

theorem powerInv_loopStep {s : BIPState} (hInv : PowerInv s) :
    PowerInv (loopStep s) := by
  unfold loopStep
  split
  · exact hInv
  · exact powerInv_stepRound hInv

theorem powerInv_initState (src : Point) (rest : List Point) :
    PowerInv (initState src rest) := by
  constructor
  · intro t ht
    simp only [initState, List.mem_singleton] at ht
    rw [ht]
  · intro t ht u hu
    simp only [initState, List.mem_singleton] at ht
    rw [ht]
    exact sqDist_nonneg _ _ _ _

theorem powerInv_iterLoop (src : Point) (rest : List Point) (k : ℕ) :
    PowerInv (iterLoop (initState src rest) k) := by
  induction k with
  | zero => exact powerInv_initState src rest
  | succ n ih => exact powerInv_loopStep ih

theorem getElem?_lt_length {l : List TransNode} {i : ℕ} {t : TransNode}
    (h : l[i]? = some t) : i < l.length := by
  rcases lt_or_le i l.length with h1 | h1
  · exact h1
  · rw [List.getElem?_eq_none h1] at h; cases h

/-- Applying a winning row of non-negative cost keeps every existing
transmitting row in place, with unchanged coordinates and a power that can
only grow. -/
theorem applyWinner_transmitting_mono {s : BIPState} {w : Cand} (hc0 : 0 ≤ w.cost)
    (i : ℕ) (t : TransNode) (h : s.transmitting[i]? = some t) :
    ∃ t', (applyWinner s w).transmitting[i]? = some t' ∧
      t'.x = t.x ∧ t'.y = t.y ∧ t.power ≤ t'.power := by
  have hi : i < s.transmitting.length := getElem?_lt_length h
  have hmap : (s.transmitting.map fun t =>
      if matchesPoint (w.sx, w.sy) (t.x, t.y) then
        { t with power := t.power + w.cost } else t)[i]? =
      some (if matchesPoint (w.sx, w.sy) (t.x, t.y) then
        { t with power := t.power + w.cost } else t) := by
    rw [List.getElem?_map, h]
    rfl
  have happ : (applyWinner s w).transmitting[i]? =
      some (if matchesPoint (w.sx, w.sy) (t.x, t.y) then
        { t with power := t.power + w.cost } else t) := by
    show ((s.transmitting.map fun t =>
      if matchesPoint (w.sx, w.sy) (t.x, t.y) then
        { t with power := t.power + w.cost } else t) ++
        List.replicate (eraseSkip (matchesPoint (w.sx, w.sy)) s.nontransmitting).2
          ⟨w.sx, w.sy, w.cost⟩)[i]? = _
    rw [List.getElem?_append_left (by rw [List.length_map]; exact hi), hmap]
  refine ⟨_, happ, ?_, ?_, ?_⟩ <;> split <;> simp <;> linarith

/-- One guarded iteration of the loop keeps every existing transmitting row
in place, with unchanged coordinates and a power that can only grow. -/
theorem loopStep_transmitting_mono {s : BIPState} (hInv : PowerInv s)
    (i : ℕ) (t : TransNode) (h : s.transmitting[i]? = some t) :
    ∃ t', (loopStep s).transmitting[i]? = some t' ∧
      t'.x = t.x ∧ t'.y = t.y ∧ t.power ≤ t'.power := by
  by_cases hu : s.uncovered = []
  · rw [loopStep, if_pos hu]
    exact ⟨t, h, rfl, rfl, le_refl _⟩
  · rw [loopStep, if_neg hu]
    cases hcs : candidates s with
    | nil =>
      rw [stepRound_of_candidates_nil hcs]
      exact ⟨t, h, rfl, rfl, le_refl _⟩
    | cons c cs =>
      rw [stepRound_of_candidates_cons hcs]
      apply applyWinner_transmitting_mono _ i t h
      apply cost_nonneg hInv
      rw [hcs]
      exact selectMinCand_mem c cs

/-! ### Termination: each effective round erases at least one uncovered node -/

theorem iterLoop_shift (s : BIPState) (n : ℕ) :
    iterLoop s (n + 1) = iterLoop (loopStep s) n := by
  induction n with
  | zero => rfl
  | succ m ih =>
    show loopStep (iterLoop s (m + 1)) = loopStep (iterLoop (loopStep s) m)
    rw [ih]

theorem winner_target_mem {s : BIPState} {w : Cand} (hw : w ∈ candidates s) :
    ∃ u ∈ s.uncovered, w.tx = u.1 ∧ w.ty = u.2 := by
  rcases mem_candidates.1 hw with ⟨t0, _, u0, hu0, rfl⟩ | ⟨n0, _, u0, hu0, rfl⟩
  · exact ⟨u0, hu0, rfl, rfl⟩
  · exact ⟨u0, hu0, rfl, rfl⟩

theorem applyWinner_transmitting_ne_nil {s : BIPState} {w : Cand}
    (ht : s.transmitting ≠ []) : (applyWinner s w).transmitting ≠ [] := by
  cases hts : s.transmitting with
  | nil => exact absurd hts ht
  | cons t ts => simp [applyWinner, hts]

theorem stepRound_progress {s : BIPState} (ht : s.transmitting ≠ [])
    (hu : s.uncovered ≠ []) :
    (stepRound s).uncovered.length < s.uncovered.length ∧
      (stepRound s).transmitting ≠ [] := by
  cases hcs : candidates s with
  | nil => exact absurd hcs (candidates_ne_nil ht hu)
  | cons c cs =>
    rw [stepRound_of_candidates_cons hcs]
    have hw : selectMinCand c cs ∈ candidates s := by
      rw [hcs]; exact selectMinCand_mem c cs
    obtain ⟨u0, hu0, htx, hty⟩ := winner_target_mem hw
    have htgt : ((selectMinCand c cs).tx, (selectMinCand c cs).ty) = u0 := by
      rw [htx, hty]
    have hmatch : matchesPoint ((selectMinCand c cs).tx, (selectMinCand c cs).ty) u0 := by
      rw [htgt]; exact matchesPoint_refl u0
    have hcnt : 1 ≤ (eraseSkip
        (matchesPoint ((selectMinCand c cs).tx, (selectMinCand c cs).ty)) s.uncovered).2 :=
      eraseSkip_count_pos _ _ ⟨u0, hu0, hmatch⟩
    have hlen := eraseSkip_length
      (matchesPoint ((selectMinCand c cs).tx, (selectMinCand c cs).ty)) s.uncovered
    constructor
    · show (eraseSkip _ s.uncovered).1.length < s.uncovered.length
      omega
    · exact applyWinner_transmitting_ne_nil ht

theorem iterLoop_drain : ∀ (n : ℕ) (s : BIPState), s.transmitting ≠ [] →
    s.uncovered.length ≤ n →
    (iterLoop s n).uncovered = [] ∧ (iterLoop s n).transmitting ≠ [] := by
  intro n
  induction n with
  | zero =>
    intro s ht hlen
    exact ⟨List.eq_nil_of_length_eq_zero (Nat.le_zero.1 hlen), ht⟩
  | succ m ih =>
    intro s ht hlen
    rw [iterLoop_shift]
    by_cases hu : s.uncovered = []
    · rw [loopStep, if_pos hu]
      exact ih s ht (by simp [hu])
    · rw [loopStep, if_neg hu]
      obtain ⟨hless, ht'⟩ := stepRound_progress ht hu
      exact ih (stepRound s) ht' (by omega)

theorem runBIP_uncovered_nil (src : Point) (rest : List Point) :
    (runBIP src rest).uncovered = [] ∧ (runBIP src rest).transmitting ≠ [] := by
  exact iterLoop_drain rest.length (initState src rest) (by simp [initState])
    (by simp [initState])

/-! ### The path log grows exactly with the round counter -/

theorem loopStep_path_round {s : BIPState}
    (h : s.transmissionPath.length = s.round) :
    (loopStep s).transmissionPath.length = (loopStep s).round := by
  by_cases hu : s.uncovered = []
  · rw [loopStep, if_pos hu]; exact h
  · rw [loopStep, if_neg hu]
    cases hcs : candidates s with
    | nil => rw [stepRound_of_candidates_nil hcs]; exact h
    | cons c cs =>
      rw [stepRound_of_candidates_cons hcs]
      show (s.transmissionPath ++ [_]).length = s.round + 1
      rw [List.length_append, h]
      rfl

theorem loopStep_round_le {s : BIPState} : (loopStep s).round ≤ s.round + 1 := by
  by_cases hu : s.uncovered = []
  · rw [loopStep, if_pos hu]; omega
  · rw [loopStep, if_neg hu]
    cases hcs : candidates s with
    | nil => rw [stepRound_of_candidates_nil hcs]; omega
    | cons c cs =>
      rw [stepRound_of_candidates_cons hcs]
      show s.round + 1 ≤ s.round + 1
      omega

theorem iterLoop_path_round (src : Point) (rest : List Point) (k : ℕ) :
    (iterLoop (initState src rest) k).transmissionPath.length =
      (iterLoop (initState src rest) k).round := by
  induction k with
  | zero => rfl
  | succ m ih => exact loopStep_path_round ih

theorem iterLoop_round_le (src : Point) (rest : List Point) (k : ℕ) :
    (iterLoop (initState src rest) k).round ≤ k := by
  induction k with
  | zero => exact Nat.le_refl 0
  | succ m ih =>
    have := loopStep_round_le (s := iterLoop (initState src rest) m)
    show (loopStep _).round ≤ m + 1
    omega

/-! ### The partition invariant under well-separated inputs -/

theorem noMatch_symmetric : Symmetric fun a b : Point => ¬ matchesPoint a b :=
  fun _ _ h hm => h (matchesPoint_symm hm)

theorem map_id_of_mem {α : Type} (f : α → α) (l : List α) (h : ∀ a ∈ l, f a = a) :
    l.map f = l := by
  induction l with
  | nil => rfl
  | cons a rest ih =>
    rw [List.map_cons, h a (List.mem_cons_self _ _),
      ih fun x hx => h x (List.mem_cons_of_mem _ hx)]

theorem perm_swap_T (A B l1 l2 : List Point) (u0 : Point) :
    (A ++ (B ++ [u0]) ++ (l1 ++ l2)).Perm (A ++ B ++ (l1 ++ u0 :: l2)) := by
  apply Multiset.coe_eq_coe.mp
  have h1 : (↑(A ++ (B ++ [u0]) ++ (l1 ++ l2)) : Multiset Point) =
      ↑A + (↑B + ↑[u0]) + (↑l1 + ↑l2) := rfl
  have h2 : (↑(A ++ B ++ (l1 ++ u0 :: l2)) : Multiset Point) =
      ↑A + ↑B + (↑l1 + (↑[u0] + ↑l2)) := rfl
  rw [h1, h2]
  abel

theorem perm_swap_N (A m1 m2 l1 l2 : List Point) (n0 u0 : Point) :
    ((A ++ [n0]) ++ ((m1 ++ m2) ++ [u0]) ++ (l1 ++ l2)).Perm
      (A ++ (m1 ++ n0 :: m2) ++ (l1 ++ u0 :: l2)) := by
  apply Multiset.coe_eq_coe.mp
  have h1 : (↑((A ++ [n0]) ++ ((m1 ++ m2) ++ [u0]) ++ (l1 ++ l2)) : Multiset Point) =
      (↑A + ↑[n0]) + ((↑m1 + ↑m2) + ↑[u0]) + (↑l1 + ↑l2) := rfl
  have h2 : (↑(A ++ (m1 ++ n0 :: m2) ++ (l1 ++ u0 :: l2)) : Multiset Point) =
      ↑A + (↑m1 + (↑[n0] + ↑m2)) + (↑l1 + (↑[u0] + ↑l2)) := rfl
  rw [h1, h2]
  abel

/-- Splitting the pairwise-separation property of the tracked points into
its componentwise consequences. -/
theorem allPoints_pairwise_parts {s : BIPState}
    (h : (allPoints s).Pairwise fun a b => ¬ matchesPoint a b) :
    ((s.transmitting.map coords).Pairwise fun a b => ¬ matchesPoint a b) ∧
    (s.nontransmitting.Pairwise fun a b => ¬ matchesPoint a b) ∧
    (s.uncovered.Pairwise fun a b => ¬ matchesPoint a b) ∧
    (∀ a ∈ s.transmitting.map coords, ∀ b ∈ s.nontransmitting, ¬ matchesPoint a b) ∧
    (∀ a ∈ s.transmitting.map coords, ∀ b ∈ s.uncovered, ¬ matchesPoint a b) ∧
    (∀ a ∈ s.nontransmitting, ∀ b ∈ s.uncovered, ¬ matchesPoint a b) := by
  unfold allPoints at h
  rw [List.pairwise_append] at h
  obtain ⟨hAB, hC, hcross⟩ := h
  rw [List.pairwise_append] at hAB
  obtain ⟨hA, hB, hab⟩ := hAB
  refine ⟨hA, hB, hC, hab, ?_, ?_⟩
  · intro a ha b hb
    exact hcross a (List.mem_append.2 (Or.inl ha)) b hb
  · intro a ha b hb
    exact hcross a (List.mem_append.2 (Or.inr ha)) b hb

theorem pairwise_of_perm_sep {l L : List Point} (hperm : l.Perm L)
    (hSep : L.Pairwise fun a b => ¬ matchesPoint a b) :
    l.Pairwise fun a b => ¬ matchesPoint a b := by
  refine List.Pairwise.perm hSep hperm.symm ?_
  intro a b h hm
  exact h (matchesPoint_symm hm)

/-- Removing one element of a pairwise-separated vector: the loop erases
exactly that element. -/
theorem eraseSkip_of_pairwise {l : List Point}
    (hl : l.Pairwise fun a b => ¬ matchesPoint a b) {x : Point} (hx : x ∈ l) :
    ∃ l1 l2, l = l1 ++ x :: l2 ∧ eraseSkip (matchesPoint x) l = (l1 ++ l2, 1) := by
  obtain ⟨l1, l2, hsplit⟩ := List.mem_iff_append.mp hx
  have hl' := hl
  rw [hsplit, List.pairwise_append] at hl'
  have h1 : ∀ a ∈ l1, ¬ matchesPoint x a := by
    intro a ha hm
    exact hl'.2.2 a ha x (List.mem_cons_self _ _) (matchesPoint_symm hm)
  have h2 : ∀ a ∈ l2, ¬ matchesPoint x a := by
    intro a ha
    exact (List.pairwise_cons.1 hl'.2.1).1 a ha
  refine ⟨l1, l2, hsplit, ?_⟩
  rw [hsplit]
  exact eraseSkip_single _ l1 l2 x (matchesPoint_refl x) h1 h2

/-- Main preservation lemma: applying any winning candidate row keeps
`GoodState` when the input nodes are pairwise separated. -/
theorem goodState_applyWinner {L : List Point} {s : BIPState} {w : Cand}
    (hSep : SepLocations L) (hGood : GoodState L s)
    (hw : w ∈ candidates s) : GoodState L (applyWinner s w) := by
  obtain ⟨hperm, htne, hcount, hcost⟩ := hGood
  have hPW : (allPoints s).Pairwise fun a b => ¬ matchesPoint a b :=
    pairwise_of_perm_sep hperm hSep
  obtain ⟨hA, hB, hC, hab, hac, hbc⟩ := allPoints_pairwise_parts hPW
  rcases mem_candidates.1 hw with ⟨t0, ht0, u0, hu0, hwEq⟩ | ⟨n0, hn0, u0, hu0, hwEq⟩
  · -- the winner originates from a transmitting node t0
    have htgt : (w.tx, w.ty) = u0 := by rw [hwEq]; rfl
    have hsx : (w.sx, w.sy) = coords t0 := by rw [hwEq]; rfl
    obtain ⟨l1, l2, hCsplit, hET⟩ := eraseSkip_of_pairwise hC hu0
    have huncov : eraseSkip (matchesPoint (w.tx, w.ty)) s.uncovered = (l1 ++ l2, 1) := by
      rw [htgt]; exact hET
    have hBno : ∀ n ∈ s.nontransmitting, ¬ matchesPoint (w.sx, w.sy) n := by
      intro n hn
      rw [hsx]
      exact hab (coords t0) (List.mem_map_of_mem coords ht0) n hn
    have hprom : eraseSkip (matchesPoint (w.sx, w.sy)) s.nontransmitting =
        (s.nontransmitting, 0) :=
      eraseSkip_no_match _ _ hBno
    obtain ⟨m1, m2, hTsplit⟩ := List.mem_iff_append.mp ht0
    have hAm := hA
    rw [hTsplit, List.map_append, List.map_cons, List.pairwise_append,
      List.pairwise_cons] at hAm
    have hf1 : ∀ t ∈ m1, ¬ matchesPoint (w.sx, w.sy) (t.x, t.y) := by
      intro t ht hm
      rw [hsx] at hm
      exact hAm.2.2 (coords t) (List.mem_map_of_mem coords ht) (coords t0)
        (List.mem_cons_self _ _) (matchesPoint_symm hm)
    have hf2 : ∀ t ∈ m2, ¬ matchesPoint (w.sx, w.sy) (t.x, t.y) := by
      intro t ht hm
      rw [hsx] at hm
      exact hAm.2.1.1 (coords t) (List.mem_map_of_mem coords ht) hm
    have hft0 : matchesPoint (w.sx, w.sy) (t0.x, t0.y) := by
      rw [hsx]
      exact matchesPoint_refl (coords t0)
    have hmapf : (s.transmitting.map fun t =>
        if matchesPoint (w.sx, w.sy) (t.x, t.y) then
          { t with power := t.power + w.cost } else t) =
        m1 ++ { t0 with power := t0.power + w.cost } :: m2 := by
      rw [hTsplit, List.map_append, List.map_cons, if_pos hft0,
        map_id_of_mem _ m1 fun t ht => if_neg (hf1 t ht),
        map_id_of_mem _ m2 fun t ht => if_neg (hf2 t ht)]
    refine ⟨?_, applyWinner_transmitting_ne_nil htne, ?_, ?_⟩
    · -- permutation of the input
      unfold allPoints
      simp only [applyWinner, hprom, huncov, List.replicate_zero, List.append_nil, hmapf]
      refine List.Perm.trans ?_ hperm
      unfold allPoints
      rw [hTsplit]
      have hco : (m1 ++ { t0 with power := t0.power + w.cost } :: m2).map
          coords = (m1 ++ t0 :: m2).map coords := by
        rw [List.map_append, List.map_cons, List.map_append, List.map_cons]
        rfl
      rw [hco, hCsplit, htgt]
      exact perm_swap_T _ _ l1 l2 u0
    · -- round / uncovered bookkeeping
      simp only [applyWinner, huncov]
      have hclen : s.uncovered.length = l1.length + l2.length + 1 := by
        rw [hCsplit]
        simp only [List.length_append, List.length_cons]
        omega
      simp only [List.length_append]
      omega
    · -- powers sum to the logged increments
      unfold totalBroadcastCost pathCostSum
      simp only [applyWinner, hprom, List.replicate_zero, List.append_nil, hmapf]
      unfold totalBroadcastCost pathCostSum at hcost
      rw [hTsplit] at hcost
      simp only [List.map_append, List.sum_append, List.map_cons, List.sum_cons,
        List.map_nil, List.sum_nil] at hcost ⊢
      linarith
  · -- the winner originates from a non-transmitting covered node n0
    have htgt : (w.tx, w.ty) = u0 := by rw [hwEq]; rfl
    have hsx : (w.sx, w.sy) = n0 := by rw [hwEq]; rfl
    obtain ⟨l1, l2, hCsplit, hET⟩ := eraseSkip_of_pairwise hC hu0
    have huncov : eraseSkip (matchesPoint (w.tx, w.ty)) s.uncovered = (l1 ++ l2, 1) := by
      rw [htgt]; exact hET
    have hAno : ∀ t ∈ s.transmitting, ¬ matchesPoint (w.sx, w.sy) (t.x, t.y) := by
      intro t ht hm
      rw [hsx] at hm
      exact hab (coords t) (List.mem_map_of_mem coords ht) n0 hn0 (matchesPoint_symm hm)
    have hmapf : (s.transmitting.map fun t =>
        if matchesPoint (w.sx, w.sy) (t.x, t.y) then
          { t with power := t.power + w.cost } else t) =
        s.transmitting :=
      map_id_of_mem _ _ fun t ht => if_neg (hAno t ht)
    obtain ⟨m1, m2, hBsplit, hEB⟩ := eraseSkip_of_pairwise hB hn0
    have hprom : eraseSkip (matchesPoint (w.sx, w.sy)) s.nontransmitting =
        (m1 ++ m2, 1) := by
      rw [hsx]; exact hEB
    have hcn : ([(⟨w.sx, w.sy, w.cost⟩ : TransNode)]).map coords = [n0] := by
      simp only [List.map_cons, List.map_nil]
      unfold coords
      rw [show ((⟨w.sx, w.sy, w.cost⟩ : TransNode).x,
        (⟨w.sx, w.sy, w.cost⟩ : TransNode).y) = (w.sx, w.sy) from rfl, hsx]
    refine ⟨?_, applyWinner_transmitting_ne_nil htne, ?_, ?_⟩
    · unfold allPoints
      simp only [applyWinner, hprom, huncov, List.replicate_one, hmapf]
      refine List.Perm.trans ?_ hperm
      unfold allPoints
      rw [List.map_append, hcn, hBsplit, hCsplit, htgt]
      exact perm_swap_N _ m1 m2 l1 l2 n0 u0
    · simp only [applyWinner, huncov]
      have hclen : s.uncovered.length = l1.length + l2.length + 1 := by
        rw [hCsplit]
        simp only [List.length_append, List.length_cons]
        omega
      simp only [List.length_append]
      omega
    · unfold totalBroadcastCost pathCostSum
      simp only [applyWinner, hprom, hmapf, List.replicate_one]
      unfold totalBroadcastCost pathCostSum at hcost
      simp only [List.map_append, List.sum_append, List.map_cons, List.sum_cons,
        List.map_nil, List.sum_nil] at hcost ⊢
      linarith

theorem goodState_initState (src : Point) (rest : List Point) :
    GoodState (src :: rest) (initState src rest) := by
  refine ⟨?_, by simp [initState], by simp [initState], ?_⟩
  · unfold allPoints initState
    simp only [List.map_cons, List.map_nil, coords, List.nil_append]
    exact List.Perm.refl _
  · unfold totalBroadcastCost pathCostSum initState
    simp

theorem goodState_loopStep {L : List Point} {s : BIPState}
    (hSep : SepLocations L) (hGood : GoodState L s) : GoodState L (loopStep s) := by
  by_cases hu : s.uncovered = []
  · rw [loopStep, if_pos hu]; exact hGood
  · rw [loopStep, if_neg hu]
    cases hcs : candidates s with
    | nil => exact absurd hcs (candidates_ne_nil hGood.2.1 hu)
    | cons c cs =>
      rw [stepRound_of_candidates_cons hcs]
      refine goodState_applyWinner hSep hGood ?_
      rw [hcs]
      exact selectMinCand_mem c cs

theorem goodState_iterLoop (src : Point) (rest : List Point)
    (hSep : SepLocations (src :: rest)) (k : ℕ) :
    GoodState (src :: rest) (iterLoop (initState src rest) k) := by
  induction k with
  | zero => exact goodState_initState src rest
  | succ m ih => exact goodState_loopStep hSep ih

/-! ### Concrete executions used by the examples and counterexamples -/

/-- Round 1 of the two-node example `[(0,0), (3,4)]`. -/
theorem runPair_eval : runBIP (0, 0) [(3, 4)] =
    ⟨[⟨0, 0, 25⟩], [(3, 4)], [], [⟨0, 0, 25⟩], 1⟩ := by
  show loopStep (initState (0, 0) [(3, 4)]) = _
  norm_num [initState, loopStep, stepRound, applyWinner, candidates, transCand,
    relayCand, sqDist, selectMinCand, eraseSkip, matchesPoint, doubleEquals, rabs]

/-- Round 1 of the three-node line example `[(0,0), (1,0), (2,0)]`. -/
theorem runLine_round1 : loopStep (initState (0, 0) [(1, 0), (2, 0)]) =
    ⟨[⟨0, 0, 1⟩], [(1, 0)], [(2, 0)], [⟨0, 0, 1⟩], 1⟩ := by
  norm_num [initState, loopStep, stepRound, applyWinner, candidates, transCand,
    relayCand, sqDist, selectMinCand, eraseSkip, matchesPoint, doubleEquals, rabs]
  simp

/-- The full run of the three-node line example. -/
theorem runLine_eval : runBIP (0, 0) [(1, 0), (2, 0)] =
    ⟨[⟨0, 0, 1⟩, ⟨1, 0, 1⟩], [(2, 0)], [], [⟨0, 0, 1⟩, ⟨1, 0, 1⟩], 2⟩ := by
  have h2 : loopStep (⟨[⟨0, 0, 1⟩], [(1, 0)], [(2, 0)], [⟨0, 0, 1⟩], 1⟩ : BIPState) =
      ⟨[⟨0, 0, 1⟩, ⟨1, 0, 1⟩], [(2, 0)], [], [⟨0, 0, 1⟩, ⟨1, 0, 1⟩], 2⟩ := by
    norm_num [loopStep, stepRound, applyWinner, candidates, transCand,
      relayCand, sqDist, selectMinCand, eraseSkip, matchesPoint, doubleEquals, rabs]
  show loopStep (loopStep (initState (0, 0) [(1, 0), (2, 0)])) = _
  rw [runLine_round1, h2]

/-- Round 1 of the four-node input whose last node lies within the 0.0001
tolerance of its second node: both get erased in one round. -/
theorem runMerge_round1 :
    loopStep (initState (0, 0) [(1, 0), (9, 9), (1 + 1/20000, 0)]) =
      ⟨[⟨0, 0, 1⟩], [(1, 0)], [(9, 9)], [⟨0, 0, 1⟩], 1⟩ := by
  norm_num [initState, loopStep, stepRound, applyWinner, candidates, transCand,
    relayCand, sqDist, selectMinCand, eraseSkip, matchesPoint, doubleEquals, rabs]
  simp

/-- The full run of the four-node tolerance-merge input: it finishes after
two rounds instead of three. -/
theorem runMerge_eval : runBIP (0, 0) [(1, 0), (9, 9), (1 + 1/20000, 0)] =
    ⟨[⟨0, 0, 1⟩, ⟨1, 0, 145⟩], [(9, 9)], [], [⟨0, 0, 1⟩, ⟨1, 0, 145⟩], 2⟩ := by
  have h2 : loopStep (⟨[⟨0, 0, 1⟩], [(1, 0)], [(9, 9)], [⟨0, 0, 1⟩], 1⟩ : BIPState) =
      ⟨[⟨0, 0, 1⟩, ⟨1, 0, 145⟩], [(9, 9)], [], [⟨0, 0, 1⟩, ⟨1, 0, 145⟩], 2⟩ := by
    norm_num [loopStep, stepRound, applyWinner, candidates, transCand,
      relayCand, sqDist, selectMinCand, eraseSkip, matchesPoint, doubleEquals, rabs]
  have h3 : loopStep (⟨[⟨0, 0, 1⟩, ⟨1, 0, 145⟩], [(9, 9)], [],
      [⟨0, 0, 1⟩, ⟨1, 0, 145⟩], 2⟩ : BIPState) =
      ⟨[⟨0, 0, 1⟩, ⟨1, 0, 145⟩], [(9, 9)], [], [⟨0, 0, 1⟩, ⟨1, 0, 145⟩], 2⟩ := by
    norm_num [loopStep]
  show loopStep (loopStep (loopStep (initState (0, 0) [(1, 0), (9, 9),
    (1 + 1/20000, 0)]))) = _
  rw [runMerge_round1, h2, h3]

/-- The full run of the three-node input whose second node lies within the
tolerance of the source: the winning cost of round 2 is added both to the
source's power and to the promoted relay's power. -/
theorem runDouble_eval : runBIP (0, 0) [(1/20000, 0), (5, 0)] =
    ⟨[⟨0, 0, 9999800002/400000000⟩, ⟨1/20000, 0, 9999800001/400000000⟩], [(5, 0)], [],
      [⟨0, 0, 1/400000000⟩, ⟨1/20000, 0, 9999800001/400000000⟩], 2⟩ := by
  have h1 : loopStep (initState (0, 0) [(1/20000, 0), (5, 0)]) =
      ⟨[⟨0, 0, 1/400000000⟩], [(1/20000, 0)], [(5, 0)], [⟨0, 0, 1/400000000⟩], 1⟩ := by
    norm_num [initState, loopStep, stepRound, applyWinner, candidates, transCand,
      relayCand, sqDist, selectMinCand, eraseSkip, matchesPoint, doubleEquals, rabs]
    simp
  have h2 : loopStep (⟨[⟨0, 0, 1/400000000⟩], [(1/20000, 0)], [(5, 0)],
      [⟨0, 0, 1/400000000⟩], 1⟩ : BIPState) =
      ⟨[⟨0, 0, 9999800002/400000000⟩, ⟨1/20000, 0, 9999800001/400000000⟩], [(5, 0)], [],
        [⟨0, 0, 1/400000000⟩, ⟨1/20000, 0, 9999800001/400000000⟩], 2⟩ := by
    norm_num [loopStep, stepRound, applyWinner, candidates, transCand,
      relayCand, sqDist, selectMinCand, eraseSkip, matchesPoint, doubleEquals, rabs]
  show loopStep (loopStep (initState (0, 0) [(1/20000, 0), (5, 0)])) = _
  rw [h1, h2]

/-- `SepLocations` holds for the two-point example input. -/
theorem sepPair : SepLocations [((0 : ℚ), (0 : ℚ)), ((3 : ℚ), (4 : ℚ))] := by
  unfold SepLocations
  norm_num [List.pairwise_cons, matchesPoint, doubleEquals, rabs]

/-! ### The claims -/

/-- C1: for every transmitting node, the power recorded for it is
non-decreasing across rounds — every guarded iteration of the loop keeps
each transmitting row in place with the same coordinates and a power at
least its previous value, so no operation ever decreases a node's power. -/
theorem C1_transmitting_power_monotone (src : Point) (rest : List Point)
    (k i : ℕ) (t : TransNode)
    (h : (iterLoop (initState src rest) k).transmitting[i]? = some t) :
    ∃ t', (iterLoop (initState src rest) (k + 1)).transmitting[i]? = some t' ∧
      t'.x = t.x ∧ t'.y = t.y ∧ t.power ≤ t'.power :=
  loopStep_transmitting_mono (powerInv_iterLoop src rest k) i t h

theorem C1_transmitting_power_monotone_witness :
    ∃ t', (iterLoop (initState ((0 : ℚ), (0 : ℚ)) [((3 : ℚ), (4 : ℚ))]) (0 + 1)).transmitting[0]? =
        some t' ∧
      t'.x = (⟨0, 0, 0⟩ : TransNode).x ∧ t'.y = (⟨0, 0, 0⟩ : TransNode).y ∧
      (⟨0, 0, 0⟩ : TransNode).power ≤ t'.power :=
  C1_transmitting_power_monotone (0, 0) [(3, 4)] 0 0 ⟨0, 0, 0⟩ rfl

/-- C2 (amended): for every input of N nodes (N ≥ 1, source plus `rest`),
the loop empties the uncovered set within N − 1 guarded iterations, the
path log always has exactly one entry per completed round, and the number
of rounds is at most N − 1; it equals N − 1 (with exactly one node covered
per round) whenever no two distinct input nodes are coordinate-equal
within the 0.0001 tolerance. The original unconditional claim fails when
two distinct nodes fall within the tolerance. -/
theorem C2_rounds_and_path_length (src : Point) (rest : List Point) :
    (runBIP src rest).uncovered = [] ∧
    (runBIP src rest).transmissionPath.length = (runBIP src rest).round ∧
    (runBIP src rest).round ≤ rest.length ∧
    (SepLocations (src :: rest) →
      (runBIP src rest).round = rest.length ∧
      (runBIP src rest).transmissionPath.length = rest.length) := by
  refine ⟨(runBIP_uncovered_nil src rest).1, iterLoop_path_round src rest rest.length,
    iterLoop_round_le src rest rest.length, ?_⟩
  intro hSep
  have hG := goodState_iterLoop src rest hSep rest.length
  have hunc := (runBIP_uncovered_nil src rest).1
  have hcount := hG.2.2.1
  unfold runBIP at hunc ⊢
  rw [hunc] at hcount
  simp only [List.length_nil, List.length_cons] at hcount
  have hround : (iterLoop (initState src rest) rest.length).round = rest.length := by
    omega
  exact ⟨hround, by rw [iterLoop_path_round src rest rest.length]; exact hround⟩

theorem C2_rounds_and_path_length_witness :
    (runBIP ((0 : ℚ), (0 : ℚ)) [((3 : ℚ), (4 : ℚ))]).uncovered = [] ∧
    (runBIP ((0 : ℚ), (0 : ℚ)) [((3 : ℚ), (4 : ℚ))]).round = 1 :=
  ⟨(C2_rounds_and_path_length (0, 0) [(3, 4)]).1,
    ((C2_rounds_and_path_length (0, 0) [(3, 4)]).2.2.2 sepPair).1⟩

/-- C2 counterexample: on the four-node input `[(0,0), (1,0), (9,9),
(1 + 1/20000, 0)]` the loop finishes (uncovered empty) after 2 rounds with
2 path entries, not N − 1 = 3, because the tolerance makes round 1 erase
two uncovered nodes. -/
theorem C2_rounds_and_path_length_counterexample :
    (runBIP ((0 : ℚ), (0 : ℚ)) [((1 : ℚ), (0 : ℚ)), ((9 : ℚ), (9 : ℚ)),
      (1 + 1/20000, (0 : ℚ))]).uncovered = [] ∧
    (runBIP ((0 : ℚ), (0 : ℚ)) [((1 : ℚ), (0 : ℚ)), ((9 : ℚ), (9 : ℚ)),
      (1 + 1/20000, (0 : ℚ))]).round = 2 ∧
    (runBIP ((0 : ℚ), (0 : ℚ)) [((1 : ℚ), (0 : ℚ)), ((9 : ℚ), (9 : ℚ)),
      (1 + 1/20000, (0 : ℚ))]).transmissionPath.length = 2 ∧
    [((1 : ℚ), (0 : ℚ)), ((9 : ℚ), (9 : ℚ)), (1 + 1/20000, (0 : ℚ))].length = 3 ∧
    (2 : ℕ) ≠ 3 := by
  rw [runMerge_eval]
  refine ⟨rfl, rfl, rfl, rfl, by omega⟩

/-- C3 (amended): provided no two distinct input nodes are coordinate-equal
within the 0.0001 tolerance, then after initialization and after every
round the three collections are pairwise disjoint and together hold
exactly the input nodes (as a permutation of the input list). The original
unconditional claim fails when two distinct nodes fall within the
tolerance. -/
theorem C3_partition_invariant (src : Point) (rest : List Point)
    (hSep : SepLocations (src :: rest)) (k : ℕ) :
    (allPoints (iterLoop (initState src rest) k)).Perm (src :: rest) ∧
    (∀ p ∈ (iterLoop (initState src rest) k).transmitting.map coords,
      p ∉ (iterLoop (initState src rest) k).nontransmitting ∧
      p ∉ (iterLoop (initState src rest) k).uncovered) ∧
    (∀ p ∈ (iterLoop (initState src rest) k).nontransmitting,
      p ∉ (iterLoop (initState src rest) k).uncovered) := by
  have hG := goodState_iterLoop src rest hSep k
  have hPW := pairwise_of_perm_sep hG.1 hSep
  obtain ⟨hA, hB, hC, hab, hac, hbc⟩ := allPoints_pairwise_parts hPW
  refine ⟨hG.1, ?_, ?_⟩
  · intro p hp
    constructor
    · intro hp2
      exact hab p hp p hp2 (matchesPoint_refl p)
    · intro hp2
      exact hac p hp p hp2 (matchesPoint_refl p)
  · intro p hp hp2
    exact hbc p hp p hp2 (matchesPoint_refl p)

theorem C3_partition_invariant_witness :
    (allPoints (iterLoop (initState ((0 : ℚ), (0 : ℚ)) [((3 : ℚ), (4 : ℚ))]) 1)).Perm
      (((0 : ℚ), (0 : ℚ)) :: [((3 : ℚ), (4 : ℚ))]) ∧
    (∀ p ∈ (iterLoop (initState ((0 : ℚ), (0 : ℚ)) [((3 : ℚ), (4 : ℚ))]) 1).transmitting.map
        coords,
      p ∉ (iterLoop (initState ((0 : ℚ), (0 : ℚ)) [((3 : ℚ), (4 : ℚ))]) 1).nontransmitting ∧
      p ∉ (iterLoop (initState ((0 : ℚ), (0 : ℚ)) [((3 : ℚ), (4 : ℚ))]) 1).uncovered) ∧
    (∀ p ∈ (iterLoop (initState ((0 : ℚ), (0 : ℚ)) [((3 : ℚ), (4 : ℚ))]) 1).nontransmitting,
      p ∉ (iterLoop (initState ((0 : ℚ), (0 : ℚ)) [((3 : ℚ), (4 : ℚ))]) 1).uncovered) :=
  C3_partition_invariant (0, 0) [(3, 4)] sepPair 1

/-- C3 counterexample: on the four-node input `[(0,0), (1,0), (9,9),
(1 + 1/20000, 0)]`, after round 1 the input node `(1 + 1/20000, 0)` is in
none of the three collections, so their union is no longer the set of all
input nodes. -/
theorem C3_partition_invariant_counterexample :
    ((1 + 1/20000 : ℚ), (0 : ℚ)) ∈ [(((0 : ℚ), (0 : ℚ)) : Point), (1, 0), (9, 9),
      (1 + 1/20000, 0)] ∧
    ((1 + 1/20000 : ℚ), (0 : ℚ)) ∉
      allPoints (iterLoop (initState ((0 : ℚ), (0 : ℚ)) [((1 : ℚ), (0 : ℚ)),
        ((9 : ℚ), (9 : ℚ)), (1 + 1/20000, (0 : ℚ))]) 1) := by
  constructor
  · simp
  · rw [show iterLoop (initState ((0 : ℚ), (0 : ℚ)) [((1 : ℚ), (0 : ℚ)),
      ((9 : ℚ), (9 : ℚ)), (1 + 1/20000, (0 : ℚ))]) 1 =
      loopStep (initState ((0 : ℚ), (0 : ℚ)) [((1 : ℚ), (0 : ℚ)),
      ((9 : ℚ), (9 : ℚ)), (1 + 1/20000, (0 : ℚ))]) from rfl, runMerge_round1]
    unfold allPoints coords
    norm_num

/-- C4: in every round the algorithm applies the candidate row returned by
the min-element scan; the candidate vector enumerates all
transmitting-node rows (in stored transmitting-then-uncovered order)
before all relay rows (in stored relay-then-uncovered order); and the
selected row is the first global minimum: every earlier row costs strictly
more and every later row costs at least as much. -/
theorem C4_first_min_selection (s : BIPState) (c : Cand) (cs : List Cand)
    (hcs : candidates s = c :: cs) :
    stepRound s = applyWinner s (selectMinCand c cs) ∧
    candidates s =
      (s.transmitting.flatMap fun t => s.uncovered.map fun u => transCand t u) ++
      (s.nontransmitting.flatMap fun n => s.uncovered.map fun u => relayCand n u) ∧
    ∃ l1 l2, candidates s = l1 ++ selectMinCand c cs :: l2 ∧
      (∀ d ∈ l1, (selectMinCand c cs).cost < d.cost) ∧
      (∀ d ∈ l2, (selectMinCand c cs).cost ≤ d.cost) := by
  refine ⟨stepRound_of_candidates_cons hcs, rfl, ?_⟩
  rw [hcs]
  exact selectMinCand_isFirstMin c cs

theorem C4_first_min_selection_witness :
    stepRound (initState ((0 : ℚ), (0 : ℚ)) [((3 : ℚ), (4 : ℚ))]) =
      applyWinner (initState ((0 : ℚ), (0 : ℚ)) [((3 : ℚ), (4 : ℚ))])
        (selectMinCand ⟨25, 0, 0, 3, 4⟩ []) ∧
    candidates (initState ((0 : ℚ), (0 : ℚ)) [((3 : ℚ), (4 : ℚ))]) =
      ((initState ((0 : ℚ), (0 : ℚ)) [((3 : ℚ), (4 : ℚ))]).transmitting.flatMap fun t =>
        (initState ((0 : ℚ), (0 : ℚ)) [((3 : ℚ), (4 : ℚ))]).uncovered.map fun u =>
          transCand t u) ++
      ((initState ((0 : ℚ), (0 : ℚ)) [((3 : ℚ), (4 : ℚ))]).nontransmitting.flatMap fun n =>
        (initState ((0 : ℚ), (0 : ℚ)) [((3 : ℚ), (4 : ℚ))]).uncovered.map fun u =>
          relayCand n u) ∧
    ∃ l1 l2, candidates (initState ((0 : ℚ), (0 : ℚ)) [((3 : ℚ), (4 : ℚ))]) =
      l1 ++ selectMinCand ⟨25, 0, 0, 3, 4⟩ [] :: l2 ∧
      (∀ d ∈ l1, (selectMinCand ⟨25, 0, 0, 3, 4⟩ []).cost < d.cost) ∧
      (∀ d ∈ l2, (selectMinCand ⟨25, 0, 0, 3, 4⟩ []).cost ≤ d.cost) :=
  C4_first_min_selection (initState (0, 0) [(3, 4)]) ⟨25, 0, 0, 3, 4⟩ []
    (by norm_num [candidates, initState, transCand, relayCand, sqDist])

/-- C5: on the two-node input `[(0,0), (3,4)]` the algorithm runs exactly
one round, after which the source transmits with power 25, the node (3,4)
is the sole non-transmitting covered node, the total broadcast cost is 25,
and the transmission path has the single entry: source (0,0) increases its
power by 25. -/
theorem C5_two_node_example :
    runBIP ((0 : ℚ), (0 : ℚ)) [((3 : ℚ), (4 : ℚ))] =
      ⟨[⟨0, 0, 25⟩], [(3, 4)], [], [⟨0, 0, 25⟩], 1⟩ ∧
    totalBroadcastCost (runBIP ((0 : ℚ), (0 : ℚ)) [((3 : ℚ), (4 : ℚ))]) = 25 := by
  refine ⟨runPair_eval, ?_⟩
  rw [runPair_eval]
  unfold totalBroadcastCost
  norm_num

/-- C6: on the three-node input `[(0,0), (1,0), (2,0)]`, round 1 covers
(1,0) from the source at cost 1, round 2 promotes the relay (1,0) to a
transmitting node at cost 1 (beating the source's marginal cost of 3), and
the final state has transmitting nodes (0,0) and (1,0), both with power 1,
total cost 2, and transmission path [((0,0), +1), ((1,0), +1)]. -/
theorem C6_three_node_example :
    loopStep (initState ((0 : ℚ), (0 : ℚ)) [((1 : ℚ), (0 : ℚ)), ((2 : ℚ), (0 : ℚ))]) =
      ⟨[⟨0, 0, 1⟩], [(1, 0)], [(2, 0)], [⟨0, 0, 1⟩], 1⟩ ∧
    runBIP ((0 : ℚ), (0 : ℚ)) [((1 : ℚ), (0 : ℚ)), ((2 : ℚ), (0 : ℚ))] =
      ⟨[⟨0, 0, 1⟩, ⟨1, 0, 1⟩], [(2, 0)], [], [⟨0, 0, 1⟩, ⟨1, 0, 1⟩], 2⟩ ∧
    totalBroadcastCost (runBIP ((0 : ℚ), (0 : ℚ)) [((1 : ℚ), (0 : ℚ)),
      ((2 : ℚ), (0 : ℚ))]) = 2 := by
  refine ⟨runLine_round1, runLine_eval, ?_⟩
  rw [runLine_eval]
  unfold totalBroadcastCost
  norm_num

/-- C7: if the input file cannot be opened the loader yields the empty node
sequence rather than an error; the subsequent unconditional access to the
first node then hits the error branch of the index operation (modelled by
`none`), while with at least one loaded node the access succeeds. -/
theorem C7_loader_empty_source_access (stod : String → ℚ)
    (locations : List Point) (hne : locations ≠ []) :
    loadLocations none stod = [] ∧
    (loadLocations none stod)[0]? = none ∧
    bipFromLocations (loadLocations none stod) = none ∧
    locations[0]?.isSome ∧
    (bipFromLocations locations).isSome := by
  obtain ⟨l0, ls, hsplit⟩ := List.exists_cons_of_ne_nil hne
  rw [hsplit]
  refine ⟨rfl, rfl, rfl, ?_, ?_⟩
  · rw [List.getElem?_cons_zero]
    rfl
  · rw [show bipFromLocations (l0 :: ls) = some (runBIP l0 ls) from rfl]
    rfl

theorem C7_loader_empty_source_access_witness :
    loadLocations none (fun _ => (0 : ℚ)) = [] ∧
    (loadLocations none (fun _ => (0 : ℚ)))[0]? = none ∧
    bipFromLocations (loadLocations none (fun _ => (0 : ℚ))) = none ∧
    ([(((0 : ℚ), (0 : ℚ)) : Point)])[0]?.isSome ∧
    (bipFromLocations [(((0 : ℚ), (0 : ℚ)) : Point)]).isSome :=
  C7_loader_empty_source_access (fun _ => (0 : ℚ)) [((0 : ℚ), (0 : ℚ))] (by simp)

/-- C8: whenever the argument count differs from 2 the program produces
exactly the usage line `Run the command: ./a.out locations.txt` with exit
status -1, and nothing else happens: the outcome does not depend on the
input file or on the numeric parser, so no file is read. -/
theorem C8_usage_error (argc : ℕ) (file file' : Option (List String))
    (stod stod' : String → ℚ) (h : argc ≠ 2) :
    progMain argc file stod = ProgResult.usage usageMessage (-1) ∧
    progMain argc file stod = progMain argc file' stod' ∧
    usageMessage = "Run the command: ./a.out locations.txt" := by
  unfold progMain
  rw [if_pos h, if_pos h]
  exact ⟨rfl, rfl, rfl⟩

theorem C8_usage_error_witness :
    progMain 3 none (fun _ => (0 : ℚ)) = ProgResult.usage usageMessage (-1) ∧
    progMain 3 none (fun _ => (0 : ℚ)) = progMain 3 (some []) (fun _ => (1 : ℚ)) ∧
    usageMessage = "Run the command: ./a.out locations.txt" :=
  C8_usage_error 3 none (some []) (fun _ => (0 : ℚ)) (fun _ => (1 : ℚ)) (by omega)

/-- C9 (amended): provided no two distinct input nodes are coordinate-equal
within the 0.0001 tolerance, the total broadcast cost at termination (the
sum of the final transmitting powers) equals the sum of the increments in
the transmission-path log. The original unconditional claim fails when the
winner's coordinates tolerance-match more than one stored node, since the
winning cost is then credited to several powers but logged once. -/
theorem C9_total_cost_equals_path_sum (src : Point) (rest : List Point)
    (hSep : SepLocations (src :: rest)) :
    totalBroadcastCost (runBIP src rest) = pathCostSum (runBIP src rest) :=
  (goodState_iterLoop src rest hSep rest.length).2.2.2

theorem C9_total_cost_equals_path_sum_witness :
    totalBroadcastCost (runBIP ((0 : ℚ), (0 : ℚ)) [((3 : ℚ), (4 : ℚ))]) =
      pathCostSum (runBIP ((0 : ℚ), (0 : ℚ)) [((3 : ℚ), (4 : ℚ))]) :=
  C9_total_cost_equals_path_sum (0, 0) [(3, 4)] sepPair

/-- C9 counterexample: on the input `[(0,0), (1/20000,0), (5,0)]` the
round-2 winner originates from the relay (1/20000, 0), whose coordinates
also tolerance-match the source, so its cost is added to the source's
power and becomes the promoted relay's power; the final total broadcast
cost therefore exceeds the sum of the logged increments. -/
theorem C9_total_cost_equals_path_sum_counterexample :
    totalBroadcastCost (runBIP ((0 : ℚ), (0 : ℚ)) [((1/20000 : ℚ), (0 : ℚ)),
      ((5 : ℚ), (0 : ℚ))]) ≠
    pathCostSum (runBIP ((0 : ℚ), (0 : ℚ)) [((1/20000 : ℚ), (0 : ℚ)),
      ((5 : ℚ), (0 : ℚ))]) := by
  rw [runDouble_eval]
  unfold totalBroadcastCost pathCostSum
  norm_num

/-- C10: there is an input with two distinct uncovered nodes whose
coordinates differ by strictly less than 0.0001 on both axes — here
(1,0) and (1 + 1/20000, 0) — on which round 1 erases both from the
uncovered vector, so the loop finishes in 2 rounds, fewer than the
N − 1 = 3 rounds of the nominal schedule. -/
theorem C10_tolerance_merges_nodes :
    (((1 : ℚ), (0 : ℚ)) : Point) ≠ (1 + 1/20000, 0) ∧
    matchesPoint ((1 : ℚ), (0 : ℚ)) (1 + 1/20000, 0) ∧
    (initState ((0 : ℚ), (0 : ℚ)) [((1 : ℚ), (0 : ℚ)), ((9 : ℚ), (9 : ℚ)),
      (1 + 1/20000, (0 : ℚ))]).uncovered.length = 3 ∧
    (iterLoop (initState ((0 : ℚ), (0 : ℚ)) [((1 : ℚ), (0 : ℚ)), ((9 : ℚ), (9 : ℚ)),
      (1 + 1/20000, (0 : ℚ))]) 1).uncovered.length = 1 ∧
    (runBIP ((0 : ℚ), (0 : ℚ)) [((1 : ℚ), (0 : ℚ)), ((9 : ℚ), (9 : ℚ)),
      (1 + 1/20000, (0 : ℚ))]).uncovered = [] ∧
    (runBIP ((0 : ℚ), (0 : ℚ)) [((1 : ℚ), (0 : ℚ)), ((9 : ℚ), (9 : ℚ)),
      (1 + 1/20000, (0 : ℚ))]).round = 2 ∧
    (2 : ℕ) < 3 := by
  refine ⟨?_, ?_, rfl, ?_, ?_, ?_, by omega⟩
  · intro h
    rw [Prod.mk.injEq] at h
    have := h.1
    norm_num at this
  · unfold matchesPoint doubleEquals rabs
    norm_num
  · rw [show iterLoop (initState ((0 : ℚ), (0 : ℚ)) [((1 : ℚ), (0 : ℚ)),
      ((9 : ℚ), (9 : ℚ)), (1 + 1/20000, (0 : ℚ))]) 1 =
      loopStep (initState ((0 : ℚ), (0 : ℚ)) [((1 : ℚ), (0 : ℚ)),
      ((9 : ℚ), (9 : ℚ)), (1 + 1/20000, (0 : ℚ))]) from rfl, runMerge_round1]
    rfl
  · rw [runMerge_eval]
  · rw [runMerge_eval]

end BIP
